import Mathlib

/-!
Verification of `tensorflow/core/kernels/padding_fifo_queue.cc`.

A tensor is embedded as its element type, its shape (list of dimension
sizes) and its contents as a flat row-major list of values (values are
abstracted as `Int`; only copying and zero-filling matter here, never
arithmetic on the values).  A `PartialTensorShape` is a list of
`Option Nat`: `none` is an unknown (free, `-1`) dimension.
-/

/-- The element data types.  `TF_CALL_ALL_TYPES` expands the copy and
zero-fill kernels for the plain data types; `dtResource` stands for any
type outside that list, for which the `default:` branches of
`HandleElementToLargerSliceWithRank` and `SetElementZero` fire. -/
inductive DType
  | dtFloat
  | dtInt32
  | dtString
  | dtResource
deriving DecidableEq, Repr, Inhabited

/-- Whether `TF_CALL_ALL_TYPES` covers the type (the `HANDLE_TYPE` cases). -/
def DType.handled : DType → Bool
  | .dtResource => false
  | _ => true

/-- A tensor: element type, shape, and flat row-major contents. -/
structure Tensor where
  dtype : DType
  shape : List Nat
  data : List Int
deriving DecidableEq, Repr, Inhabited

/-- `Tensor::dims()`: the rank. -/
def Tensor.dims (t : Tensor) : Nat := t.shape.length

/-- `Tensor::NumElements()`: the product of the dimension sizes. -/
def Tensor.numElements (t : Tensor) : Nat := t.shape.prod

/-- `Tensor::dim_size(j)`. -/
def Tensor.dimSize (t : Tensor) (j : Nat) : Nat := t.shape.getD j 0

/-- The error kinds of `tensorflow::errors` used by this file. -/
inductive QErr
  | outOfRange
  | dataLoss
  | internal
  | unimplemented
  | cancelled
  | invalidArgument
deriving DecidableEq, Repr

/-- Row-major flat position of the multi-index `idx` in a tensor of
dimension sizes `dims`. -/
def flatIndex : List Nat → List Nat → Nat
  | _ :: ds, i :: is => i * ds.prod + flatIndex ds is
  | _, _ => 0

/-- The multi-index of flat position `p` in a tensor of dimension sizes
`dims` (inverse of `flatIndex` for positions inside the tensor). -/
def multiIndex : List Nat → Nat → List Nat
  | [], _ => []
  | _ :: ds, p => p / ds.prod :: multiIndex ds (p % ds.prod)

/-- Whether the multi-index `idx` lies inside the extent `ext`
(pointwise `<` on the dimensions both lists share). -/
def inExtent (ext idx : List Nat) : Bool :=
  (idx.zip ext).all fun ci => decide (ci.1 < ci.2)

/-- Lines 269–293, `HandleElementToLargerSlice<T, NDIMS>`: fail with
`Internal` when the element holds more entries than one slice of the
parent; otherwise assign the element, reshaped to `[1, d0, …]`, to the
slice of the parent at `[index, 0, …, 0]` of size `[1, d0, …]`.  In the
flat row-major embedding that writes, inside slot `index` (slot size =
product of the parent's non-batch dimensions), every position whose
within-slot multi-index lies inside the element's extent. -/
def HandleElementToLargerSlice (element : Tensor) (parent : Tensor) (index : Nat) :
    Except QErr Tensor :=
  if element.numElements > parent.numElements / parent.dimSize 0 then
    .error .internal
  else
    let slot := parent.shape.tail
    let slotSize := slot.prod
    .ok { parent with
      data := (List.range parent.data.length).map fun p =>
        if p / slotSize = index ∧
            inExtent element.shape (multiIndex slot (p % slotSize)) = true then
          element.data.getD (flatIndex element.shape (multiIndex slot (p % slotSize))) 0
        else
          parent.data.getD p 0 }

/-- Lines 297–313, `HandleElementToLargerSliceWithRank<NDIMS>`: dispatch
on the element's data type over `TF_CALL_ALL_TYPES`; an uncovered type
falls to the `default:` branch, `Unimplemented`. -/
def HandleElementToLargerSliceWithRank (element : Tensor) (parent : Tensor) (index : Nat) :
    Except QErr Tensor :=
  if element.dtype.handled then
    HandleElementToLargerSlice element parent index
  else
    .error .unimplemented

/-- Lines 317–344, `PaddingFIFOQueue::CopyElementToLargerSlice`: an
output rank other than the element's rank plus one is an `Internal`
error; then ranks 0 through 4 are dispatched (`HANDLE_DIMS(0)` …
`HANDLE_DIMS(4)`), any other rank is `Unimplemented`. -/
def CopyElementToLargerSlice (element : Tensor) (parent : Tensor) (index : Nat) :
    Except QErr Tensor :=
  if parent.dims ≠ element.dims + 1 then
    .error .internal
  else if element.dims ≤ 4 then
    HandleElementToLargerSliceWithRank element parent index
  else
    .error .unimplemented

/-- Lines 347–357, `PaddingFIFOQueue::SetElementZero`: set every entry
to the type's default value (`T()`, i.e. zero); a type outside
`TF_CALL_ALL_TYPES` is `Unimplemented`. -/
def SetElementZero (element : Tensor) : Except QErr Tensor :=
  if element.dtype.handled then
    .ok { element with data := List.replicate element.data.length 0 }
  else
    .error .unimplemented

/-- Modelled from the spec: `CopyElementToSlice` (queue_base, outside
this file) performs the direct slice copy used when the component's
declared shape is fully fixed: element `index`'s values become slot
`index` of the output wholesale. -/
def CopyElementToSlice (element : Tensor) (parent : Tensor) (index : Nat) :
    Except QErr Tensor :=
  let slotSize := parent.shape.tail.prod
  .ok { parent with
    data := (List.range parent.data.length).map fun p =>
      if p / slotSize = index then element.data.getD (p % slotSize) 0
      else parent.data.getD p 0 }

/-- Lines 359–368, `ConvertShapesPartialDimensionsToZero`: each unknown
(`< 0`) dimension becomes 0, known dimensions stay. -/
def ConvertShapesPartialDimensionsToZero (shapeSpecs : List (List (Option Nat))) :
    List (List Nat) :=
  shapeSpecs.map fun ps => ps.map fun d => d.getD 0

/-- The queue's construction-time data: `capacity_`, `component_dtypes_`
and `partial_shapes_`. -/
structure QueueSpec where
  capacity : Int
  component_dtypes : List DType
  shapeSpecs : List (List (Option Nat))
deriving DecidableEq, Repr

/-- `num_components()`. -/
def QueueSpec.numComponents (q : QueueSpec) : Nat := q.component_dtypes.length

/-- Lines 151–162: the target size of every non-batch dimension `j` of
component `i`: a known (`> -1`) dimension of `partial_shapes_[i]` is
taken as is; an unknown one is the maximum over the batch of that
dimension's actual size in each element. -/
def ComputeTargetDims (ps : List (Option Nat)) (elemShapes : List (List Nat)) : List Nat :=
  (List.range ps.length).map fun j =>
    match ps.getD j none with
    | some d => d
    | none => (elemShapes.map fun s => s.getD j 0).foldl max 0

/-- The target non-batch dimensions of component `i` for one completed
batch (lines 145–162 read `partial_shapes_[i]` and the collected
tuples). -/
def BatchTargetDims (q : QueueSpec) (tuples : List (List Tensor)) (i : Nat) : List Nat :=
  ComputeTargetDims (q.shapeSpecs.getD i []) (tuples.map fun t => (t.getD i default).shape)

/-- Lines 145–180, the allocation pass of the batch-completion step, for
one component `i`: compute the output shape `{batch_size} ++ target`,
allocate it (`allocate_temp` leaves the contents unspecified: `junk`),
and, when the declared shape of the component is not fully defined,
zero-fill it with `SetElementZero` (surfacing its error).  The returned
flag is the component's `dynamic_shape` entry. -/
def AllocateBatchComponent (junk : Int) (q : QueueSpec) (tuples : List (List Tensor))
    (i : Nat) : Except QErr (Tensor × Bool) :=
  let ps := q.shapeSpecs.getD i []
  let shape := tuples.length :: BatchTargetDims q tuples i
  let element : Tensor :=
    ⟨q.component_dtypes.getD i default, shape, List.replicate shape.prod junk⟩
  let hasDynamicShape := !ps.all Option.isSome
  if hasDynamicShape then
    (SetElementZero element).map fun z => (z, true)
  else
    .ok (element, false)

/-- The copy of one element component into its batch slot (lines
184–191): the padded copy when the component's shape is dynamic, the
direct slice copy otherwise; on success output `i` is replaced. -/
def CopyBatchStep (dynamicShape : List Bool) (tuples : List (List Tensor)) (index : Nat)
    (acc : List Tensor) (i : Nat) : Except QErr (List Tensor) :=
  let e := (tuples.getD index []).getD i default
  let cur := acc.getD i default
  (if dynamicShape.getD i false then CopyElementToLargerSlice e cur index
   else CopyElementToSlice e cur index).map fun t => acc.set i t

/-- Lines 182–194, one round of the copy loop at batch position
`index`: for every component `i`, copy element `index`'s component `i`
into slot `index` of output `i`, aborting on the first copy error. -/
def CopyBatchIndex (q : QueueSpec) (dynamicShape : List Bool) (tuples : List (List Tensor))
    (acc : List Tensor) (index : Nat) : Except QErr (List Tensor) :=
  (List.range q.numComponents).foldlM (CopyBatchStep dynamicShape tuples index) acc

/-- Lines 139–194, the whole batch-completion step (`attempt->tuples` →
`attempt->tuple`): first allocate (and zero-fill where needed) every
component's output, then copy every element into its batch slot. -/
def AssembleBatch (junk : Int) (q : QueueSpec) (tuples : List (List Tensor)) :
    Except QErr (List Tensor) := do
  let pairs ← (List.range q.numComponents).mapM (AllocateBatchComponent junk q tuples)
  (List.range tuples.length).foldlM (CopyBatchIndex q (pairs.map Prod.snd) tuples)
    (pairs.map Prod.fst)

/-- Lines 56–65, `PaddingFIFOQueue::GetElementComponent`: copy one
component of a tuple through `ctx->allocate_persistent`; `allocOk`
abstracts whether that external allocation succeeds on the given
tensor (its error's kind is never inspected by the caller). -/
def GetElementComponent (allocOk : Tensor → Bool) (tuple : List Tensor) (component : Nat) :
    Except Unit Tensor :=
  if allocOk (tuple.getD component default) then
    .ok (tuple.getD component default)
  else
    .error ()

/-- Lines 109–121, the inner loop of the restoration: for `j` over the
component queues, copy component `j` of the tuple with
`GetElementComponent` — on failure set the status to `DataLoss` (the
default-constructed element is still pushed) — and push the element onto
the front of `queues_[j]`. -/
def PushTupleFront (allocOk : Tensor → Bool) (t : List Tensor) :
    Nat → List (List Tensor) → Option QErr → List (List Tensor) × Option QErr
  | _, [], status => ([], status)
  | j, qj :: rest, status =>
    match GetElementComponent allocOk t j with
    | .ok e =>
      let r := PushTupleFront allocOk t (j + 1) rest status
      ((e :: qj) :: r.1, r.2)
    | .error _ =>
      let r := PushTupleFront allocOk t (j + 1) rest (some .dataLoss)
      ((default :: qj) :: r.1, r.2)

/-- Lines 106–123, the restoration of a partially-dequeued batch: the
source iterates `i` downward from `tuples.size() - 1` to 0, pushing
tuple `i` onto the front of every component queue; restoring the list's
tail first and then pushing its head reproduces exactly that order. -/
def RestoreTuples (allocOk : Tensor → Bool) (tuples : List (List Tensor))
    (queues : List (List Tensor)) (status : Option QErr) :
    List (List Tensor) × Option QErr :=
  match tuples with
  | [] => (queues, status)
  | t :: rest =>
    let r := RestoreTuples allocOk rest queues status
    PushTupleFront allocOk t 0 r.1 r.2

/-- Modelled from the spec: `DequeueLocked` (queue_base, outside this
file) pops the front entry of every component container, forming one
tuple — the Element Store's `popFront()`. -/
def DequeueLocked (queues : List (List Tensor)) : List Tensor × List (List Tensor) :=
  (queues.map fun qj => qj.headD default, queues.map List.tail)

/-- The ledger's `RunResult` (queue_base). -/
inductive RunResult
  | kComplete
  | kProgress
  | kNoProgress
deriving DecidableEq, Repr

/-- The dequeue-attempt state this file's progress lambda reads and
writes: `elements_requested` and the already-collected `tuples`, in pop
order. -/
structure Attempt where
  elements_requested : Nat
  tuples : List (List Tensor)
deriving DecidableEq, Repr

/-- What one evaluation of the progress lambda produces: the component
queues afterwards, the attempt's remaining `tuples` and
`elements_requested`, the status it set on the caller's context (`none`
= OK), its `RunResult`, and the batched output bound into the completion
callback, if any. -/
structure AttemptStepResult where
  queues : List (List Tensor)
  tuples : List (List Tensor)
  elements_requested : Nat
  status : Option QErr
  run : RunResult
  output : Option (List Tensor)
deriving DecidableEq, Repr

/-- Lines 127–203, the `for (; s > 0; --s)` loop: pop one tuple
(`DequeueLocked`), append it to `attempt->tuples`, decrement
`elements_requested`; at zero, assemble the batch — on success clear
`attempt->tuples`, bind the output and complete, on error complete with
that error.  Leaving the loop with elements still requested yields
`kProgress` when at least one tuple was popped this pass, `kNoProgress`
otherwise. -/
def PopLoop (junk : Int) (q : QueueSpec) :
    Nat → List (List Tensor) → List (List Tensor) → Nat → RunResult → AttemptStepResult
  | 0, queues, tuples, requested, result =>
    ⟨queues, tuples, requested, none, result, none⟩
  | s + 1, queues, tuples, requested, _ =>
    let tuple := (DequeueLocked queues).1
    let queues' := (DequeueLocked queues).2
    let tuples' := tuples ++ [tuple]
    let requested' := requested - 1
    if requested' = 0 then
      match AssembleBatch junk q tuples' with
      | .ok out => ⟨queues', [], 0, none, .kComplete, some out⟩
      | .error e => ⟨queues', tuples', 0, some e, .kComplete, none⟩
    else
      PopLoop junk q s queues' tuples' requested' .kProgress

/-- Lines 96–204, the dequeue-attempt progress lambda: with
`s = queues_[0].size()`, a closed queue holding fewer elements than the
attempt still requests sets `OutOfRange`, restores the already-collected
tuples to the front of the store (`RestoreTuples`, which reports a copy
failure as `DataLoss`), and completes; otherwise the pop loop runs. -/
def DequeueAttemptStep (junk : Int) (allocOk : Tensor → Bool) (q : QueueSpec)
    (closed : Bool) (queues : List (List Tensor)) (att : Attempt) : AttemptStepResult :=
  let s := (queues.getD 0 []).length
  if closed = true ∧ s < att.elements_requested then
    let r := RestoreTuples allocOk att.tuples queues (some .outOfRange)
    ⟨r.1, att.tuples, att.elements_requested, r.2, .kComplete, none⟩
  else
    PopLoop junk q s queues att.tuples att.elements_requested .kNoProgress

/-- Modelled from the spec: `ManyOutShape` (queue_base, outside this
file) prepends the batch size to `component_shapes_[i]`; for a
PaddingFIFOQueue those are the declared shapes with every unknown
dimension converted to zero (lines 34–39 pass the shapes through
`ConvertShapesPartialDimensionsToZero` at construction). -/
def ManyOutShape (q : QueueSpec) (i : Nat) (batch : Nat) : List Nat :=
  batch :: (ConvertShapesPartialDimensionsToZero q.shapeSpecs).getD i []

/-- How `TryDequeueMany` returns control to its caller. -/
inductive DequeueOutcome
  | done (tuple : List Tensor)
  | pending
  | cancelled
deriving DecidableEq, Repr

/-- The queue state the registration path touches: the component queues,
the closed flag and the dequeue-attempt ledger. -/
structure QState where
  queues : List (List Tensor)
  closed : Bool
  dequeue_attempts : List Attempt
deriving DecidableEq, Repr

/-- Lines 67–213, `PaddingFIFOQueue::TryDequeueMany`, registration path:
`num_elements == 0` immediately calls back with one tensor per component
of shape `ManyOutShape(i, 0)` (zero elements, so the unspecified
`allocate_temp` contents are empty) and touches neither the store nor
the ledger; a caller whose cancellation was already registered fails
with `Cancelled` and an empty tuple; otherwise an attempt is appended to
the back of `dequeue_attempts_` and the call returns pending (the
progress lambda itself is `DequeueAttemptStep`). -/
def TryDequeueMany (q : QueueSpec) (st : QState) (num_elements : Nat)
    (already_cancelled : Bool) : QState × DequeueOutcome × Option QErr :=
  if num_elements = 0 then
    (st,
     .done ((List.range q.numComponents).map fun i =>
       ⟨q.component_dtypes.getD i default, ManyOutShape q i 0, []⟩),
     none)
  else if already_cancelled then
    (st, .cancelled, some .cancelled)
  else
    ({ st with dequeue_attempts := st.dequeue_attempts ++ [⟨num_elements, []⟩] },
     .pending, none)

/-- The fields of a `NodeDef` that `MatchesNodeDef` reads. -/
structure NodeDef where
  op : String
  capacity : Int
  component_types : List DType
  shapes : List (List (Option Nat))
deriving DecidableEq, Repr

/-- Modelled from the spec: `MatchesNodeDefOp` (queue_base, outside this
file) requires the request's op name to equal the given one. -/
def MatchesNodeDefOp (node_def : NodeDef) (op : String) : Except QErr Unit :=
  if node_def.op = op then .ok () else .error .invalidArgument

/-- Modelled from the spec: `MatchesNodeDefCapacity` (queue_base,
outside this file) requires the request's capacity to be identical to
the queue's. -/
def MatchesNodeDefCapacity (node_def : NodeDef) (capacity : Int) : Except QErr Unit :=
  if node_def.capacity = capacity then .ok () else .error .invalidArgument

/-- Modelled from the spec: `MatchesNodeDefTypes` (queue_base, outside
this file) requires the request's component types to be identical to the
queue's. -/
def MatchesNodeDefTypes (node_def : NodeDef) (types : List DType) : Except QErr Unit :=
  if node_def.component_types = types then .ok () else .error .invalidArgument

/-- Modelled from the spec: `PartialTensorShapeUtils::AreCompatible`
(shape utilities, outside this file); the spec's identity negotiation
requires the two shape lists to be identical. -/
def AreCompatible (a b : List (List (Option Nat))) : Bool :=
  decide (a = b)

/-- Lines 245–259, `PaddingFIFOQueue::CompatibleNodeDefShapes`: read the
request's `shapes` attribute and compare it with `partial_shapes_` by
`AreCompatible`; a mismatch is `InvalidArgument`. -/
def CompatibleNodeDefShapes (q : QueueSpec) (node_def : NodeDef) : Except QErr Unit :=
  let requested_shapes := node_def.shapes
  if !AreCompatible requested_shapes q.shapeSpecs then
    .error .invalidArgument
  else
    .ok ()

/-- Lines 261–267, `PaddingFIFOQueue::MatchesNodeDef`: op name, then
capacity, then component types, then component shapes; the first
mismatch's error is returned. -/
def MatchesNodeDef (q : QueueSpec) (node_def : NodeDef) : Except QErr Unit := do
  MatchesNodeDefOp node_def "PaddingFIFOQueue"
  MatchesNodeDefCapacity node_def q.capacity
  MatchesNodeDefTypes node_def q.component_dtypes
  CompatibleNodeDefShapes q node_def

/-! ## Basic facts about the copy and zero-fill dispatch -/

/-- C5: an element of rank 0–4 is dispatched to the rank-indexed copy;
any other rank is rejected with `Unimplemented` before any copy of the
element is attempted; an unhandled element data type in the copy path or
in the zero-fill path is likewise rejected with `Unimplemented`. -/
theorem copyElementToLargerSlice_rank_dtype_dispatch (e p : Tensor) (idx : Nat) :
    (p.dims = e.dims + 1 → e.dims ≤ 4 →
      CopyElementToLargerSlice e p idx = HandleElementToLargerSliceWithRank e p idx) ∧
    (p.dims = e.dims + 1 → 4 < e.dims →
      CopyElementToLargerSlice e p idx = .error .unimplemented) ∧
    (e.dtype.handled = false →
      HandleElementToLargerSliceWithRank e p idx = .error .unimplemented) ∧
    (e.dtype.handled = false → SetElementZero e = .error .unimplemented) := by
  refine ⟨fun h1 h2 => ?_, fun h1 h2 => ?_, fun h => ?_, fun h => ?_⟩
  · simp [CopyElementToLargerSlice, h1, h2]
  · simp [CopyElementToLargerSlice, h1, Nat.not_le.mpr h2, Nat.not_le_of_lt h2]
  · simp [HandleElementToLargerSliceWithRank, h]
  · simp [SetElementZero, h]

/-- C10: a padded copy whose output rank is not the element's rank plus
one returns `Internal` (and produces no output tensor); contrapositively
any call that does not fail this way has an output of rank exactly the
element's rank plus one. -/
theorem copyElementToLargerSlice_rank_guard (e p : Tensor) (idx : Nat) :
    (p.dims ≠ e.dims + 1 → CopyElementToLargerSlice e p idx = .error .internal) ∧
    (CopyElementToLargerSlice e p idx ≠ .error .internal → p.dims = e.dims + 1) := by
  constructor
  · intro h
    simp [CopyElementToLargerSlice, h]
  · intro h
    by_contra hne
    exact h (by simp [CopyElementToLargerSlice, hne])

/-! ## Identity negotiation -/

/-- C7: `MatchesNodeDef` accepts only a request whose capacity,
component types and component shapes are identical to the queue's, and
any mismatch among them yields `InvalidArgument`. -/
theorem matchesNodeDef_iff_identical (q : QueueSpec) (nd : NodeDef) :
    (MatchesNodeDef q nd = .ok () →
      nd.capacity = q.capacity ∧ nd.component_types = q.component_dtypes ∧
        nd.shapes = q.shapeSpecs) ∧
    (¬(nd.capacity = q.capacity ∧ nd.component_types = q.component_dtypes ∧
        nd.shapes = q.shapeSpecs) →
      MatchesNodeDef q nd = .error .invalidArgument) := by
  by_cases hop : nd.op = "PaddingFIFOQueue" <;>
    by_cases hcap : nd.capacity = q.capacity <;>
      by_cases hty : nd.component_types = q.component_dtypes <;>
        by_cases hsh : nd.shapes = q.shapeSpecs <;>
          simp [MatchesNodeDef, MatchesNodeDefOp, MatchesNodeDefCapacity,
            MatchesNodeDefTypes, CompatibleNodeDefShapes, AreCompatible,
            Bind.bind, Except.bind, hop, hcap, hty, hsh]

/-! ## The registration path of `TryDequeueMany` -/

/-- C8: a dequeue-batch call with `n > 0` whose cancellation context is
already cancelled at registration fails immediately with `Cancelled`,
leaving the whole queue state — the attempt ledger included — unchanged. -/
theorem tryDequeueMany_already_cancelled (q : QueueSpec) (st : QState) (n : Nat)
    (hn : 0 < n) :
    TryDequeueMany q st n true = (st, .cancelled, some .cancelled) := by
  unfold TryDequeueMany
  rw [if_neg (by omega)]
  simp

/-- C6: `TryDequeueMany` with `n = 0` completes synchronously — the
state, the store and the attempt ledger are untouched and the status is
OK — returning one tensor per component whose batch dimension is 0 and
whose declared free dimensions resolve to size 0. -/
theorem tryDequeueMany_zero_sync (q : QueueSpec) (st : QState) (ac : Bool) :
    ∃ tuple,
      TryDequeueMany q st 0 ac = (st, .done tuple, none) ∧
      tuple.length = q.numComponents ∧
      ∀ i, i < q.numComponents →
        (tuple.getD i default).shape.getD 0 0 = 0 ∧
        ∀ j, (q.shapeSpecs.getD i []).getD j none = none →
          (tuple.getD i default).shape.getD (j + 1) 0 = 0 := by
  refine ⟨(List.range q.numComponents).map fun i =>
      ⟨q.component_dtypes.getD i default, ManyOutShape q i 0, []⟩,
    by simp [TryDequeueMany], by simp, ?_⟩
  intro i hi
  have hget : ((List.range q.numComponents).map fun i =>
      (⟨q.component_dtypes.getD i default, ManyOutShape q i 0, []⟩ : Tensor)).getD i default =
      ⟨q.component_dtypes.getD i default, ManyOutShape q i 0, []⟩ := by
    rw [List.getD_eq_getElem?_getD, List.getElem?_map, List.getElem?_range hi]
    rfl
  rw [hget]
  constructor
  · rfl
  · intro j hj
    show (ManyOutShape q i 0).getD (j + 1) 0 = 0
    unfold ManyOutShape ConvertShapesPartialDimensionsToZero
    rw [List.getD_cons_succ]
    rcases hqi : q.shapeSpecs[i]? with _ | ps
    · simp [hqi]
    · have hmap : (q.shapeSpecs.map fun ps => ps.map fun d => d.getD 0).getD i [] =
          ps.map fun d => d.getD 0 := by
        rw [List.getD_eq_getElem?_getD, List.getElem?_map, hqi]; rfl
      have hps : q.shapeSpecs.getD i [] = ps := by
        rw [List.getD_eq_getElem?_getD, hqi]; rfl
      rw [hmap]
      rw [hps] at hj
      rcases hpj : ps[j]? with _ | d
      · rw [List.getD_eq_getElem?_getD, List.getElem?_map, hpj]; rfl
      · have : d = none := by
          rw [List.getD_eq_getElem?_getD, hpj] at hj; exact hj
        rw [List.getD_eq_getElem?_getD, List.getElem?_map, hpj, this]; rfl

/-- Witness for `tryDequeueMany_already_cancelled` at a concrete queue. -/
theorem tryDequeueMany_already_cancelled_witness :
    TryDequeueMany ⟨2, [.dtInt32], [[none]]⟩ ⟨[[]], false, []⟩ 1 true =
      (⟨[[]], false, []⟩, .cancelled, some .cancelled) :=
  tryDequeueMany_already_cancelled ⟨2, [.dtInt32], [[none]]⟩ ⟨[[]], false, []⟩ 1
    (by decide)

/-! ## The overflow guard of the padded copy -/

/-- The seed of a `foldl max` is a lower bound of the result. -/
theorem init_le_foldl_max (l : List Nat) (b : Nat) : b ≤ l.foldl max b := by
  induction l generalizing b with
  | nil => exact Nat.le_refl b
  | cons c l ih => exact Nat.le_trans (Nat.le_max_left b c) (ih (max b c))

/-- Every member of the list is bounded by its `foldl max`. -/
theorem le_foldl_max (l : List Nat) (a : Nat) (ha : a ∈ l) : ∀ b, a ≤ l.foldl max b := by
  induction l with
  | nil => cases ha
  | cons c l ih =>
    intro b
    rw [List.foldl_cons]
    rcases List.mem_cons.mp ha with h | h
    · subst h
      exact Nat.le_trans (Nat.le_max_right b a) (init_le_foldl_max l (max b a))
    · exact ih h (max b c)

/-- Pointwise `≤` on equal-length lists of sizes bounds the products. -/
theorem prod_le_prod_pointwise (l1 l2 : List Nat) (hlen : l1.length = l2.length)
    (h : ∀ j, j < l2.length → l1.getD j 0 ≤ l2.getD j 0) : l1.prod ≤ l2.prod := by
  induction l1 generalizing l2 with
  | nil =>
    cases l2 with
    | nil => exact Nat.le_refl _
    | cons b t => cases hlen
  | cons a t1 ih =>
    cases l2 with
    | nil => cases hlen
    | cons b t2 =>
      rw [List.prod_cons, List.prod_cons]
      refine Nat.mul_le_mul (h 0 (by simp)) (ih t2 (by simpa using hlen) ?_)
      intro j hj
      exact h (j + 1) (by simpa using hj)

/-- The target dimensions have one entry per declared non-batch dimension. -/
theorem computeTargetDims_length (ps : List (Option Nat)) (shapes : List (List Nat)) :
    (ComputeTargetDims ps shapes).length = ps.length := by
  simp [ComputeTargetDims]

/-- Entry `j` of the target dimensions, for `j` in range. -/
theorem computeTargetDims_getD (ps : List (Option Nat)) (shapes : List (List Nat))
    (j : Nat) (hj : j < ps.length) :
    (ComputeTargetDims ps shapes).getD j 0 =
      match ps.getD j none with
      | some d => d
      | none => (shapes.map fun s => s.getD j 0).foldl max 0 := by
  unfold ComputeTargetDims
  rw [List.getD_eq_getElem?_getD, List.getElem?_map, List.getElem?_range hj]
  rfl

/-- C4: the rank-indexed padded copy returns `Internal` exactly when the
element holds more entries than one slice of the output can hold; and
for an element of a batch whose output shape was computed by
`ComputeTargetDims` — with the element's dimensions matching the
descriptor's fixed sizes — that branch can never fire. -/
theorem handleElementToLargerSlice_internal_iff (e p : Tensor) (idx : Nat) :
    (HandleElementToLargerSlice e p idx = .error .internal ↔
      p.numElements / p.dimSize 0 < e.numElements) ∧
    (∀ (q : QueueSpec) (tuples : List (List Tensor)) (i : Nat),
      p.shape = tuples.length ::
        ComputeTargetDims (q.shapeSpecs.getD i [])
          (tuples.map fun t => (t.getD i default).shape) →
      0 < tuples.length →
      e ∈ tuples.map (fun t => t.getD i default) →
      e.shape.length = (q.shapeSpecs.getD i []).length →
      (∀ j d, (q.shapeSpecs.getD i []).getD j none = some d → e.shape.getD j 0 = d) →
      HandleElementToLargerSlice e p idx ≠ .error .internal) := by
  constructor
  · unfold HandleElementToLargerSlice
    split
    · next hc => simpa using hc
    · next hc => simp [hc]
  · intro q tuples i hp hB hmem hlen hfix
    set ps := q.shapeSpecs.getD i [] with hps
    set shapes := tuples.map fun t => (t.getD i default).shape with hshapes
    have hdiv : p.numElements / p.dimSize 0 = (ComputeTargetDims ps shapes).prod := by
      rw [Tensor.numElements, Tensor.dimSize, hp, List.prod_cons, List.getD_cons_zero]
      exact Nat.mul_div_cancel_left _ hB
    have hle : e.numElements ≤ p.numElements / p.dimSize 0 := by
      rw [hdiv, Tensor.numElements]
      refine prod_le_prod_pointwise e.shape (ComputeTargetDims ps shapes)
        (by rw [computeTargetDims_length]; exact hlen) ?_
      intro j hj
      rw [computeTargetDims_length] at hj
      rw [computeTargetDims_getD ps shapes j hj]
      rcases hpj : ps.getD j none with _ | d
      · have hesh : e.shape ∈ shapes := by
          rcases List.mem_map.mp hmem with ⟨t, ht, he⟩
          exact List.mem_map.mpr ⟨t, ht, by rw [he]⟩
        exact le_foldl_max (shapes.map fun s => s.getD j 0) (e.shape.getD j 0)
          (List.mem_map.mpr ⟨e.shape, hesh, rfl⟩) 0
      · exact Nat.le_of_eq (hfix j d hpj)
    unfold HandleElementToLargerSlice
    rw [if_neg (Nat.not_lt.mpr hle)]
    simp

/-- Witness for `handleElementToLargerSlice_internal_iff`: the second
conjunct at the spec's own padding example. -/
theorem handleElementToLargerSlice_internal_iff_witness :
    HandleElementToLargerSlice ⟨.dtInt32, [2], [1, 2]⟩
        ⟨.dtInt32, [3, 3], List.replicate 9 0⟩ 0 ≠ .error .internal :=
  (handleElementToLargerSlice_internal_iff ⟨.dtInt32, [2], [1, 2]⟩
      ⟨.dtInt32, [3, 3], List.replicate 9 0⟩ 0).2
    ⟨2, [.dtInt32], [[none]]⟩
    [[⟨.dtInt32, [2], [1, 2]⟩], [⟨.dtInt32, [3], [3, 4, 5]⟩], [⟨.dtInt32, [1], [6]⟩]]
    0 (by decide) (by decide) (by decide) (by decide)
    (by intro j d h; rcases j with _ | j <;> simp_all)

/-! ## Restoration lemmas -/

/-- Pushing one tuple keeps the number of component queues. -/
theorem pushTupleFront_length (allocOk : Tensor → Bool) (t : List Tensor) :
    ∀ (queues : List (List Tensor)) (j : Nat) (status : Option QErr),
      (PushTupleFront allocOk t j queues status).1.length = queues.length := by
  intro queues
  induction queues with
  | nil => intro j status; rfl
  | cons qj rest ih =>
    intro j status
    unfold PushTupleFront
    cases hge : GetElementComponent allocOk t j with
    | ok e => simp [ih]
    | error e => simp [ih]

/-- Entry `k` of the queues after pushing one tuple: the component
`j + k` element copied by `GetElementComponent` (or, on a copy failure,
a default-constructed element) in front of the old entry. -/
theorem pushTupleFront_getD (allocOk : Tensor → Bool) (t : List Tensor) :
    ∀ (queues : List (List Tensor)) (j : Nat) (status : Option QErr) (k : Nat),
      k < queues.length →
      (PushTupleFront allocOk t j queues status).1.getD k [] =
        (match GetElementComponent allocOk t (j + k) with
          | .ok e => e
          | .error _ => default) :: queues.getD k [] := by
  intro queues
  induction queues with
  | nil => intro j status k hk; cases hk
  | cons qj rest ih =>
    intro j status k hk
    unfold PushTupleFront
    cases k with
    | zero =>
      cases hge : GetElementComponent allocOk t j with
      | ok e => simp [hge]
      | error e => simp [hge]
    | succ k =>
      have hk' : k < rest.length := by simpa using hk
      have harith : j + (k + 1) = (j + 1) + k := by omega
      cases hge : GetElementComponent allocOk t j with
      | ok e => simpa [harith] using ih (j + 1) status k hk'
      | error e => simpa [harith] using ih (j + 1) (some .dataLoss) k hk'

/-- When every component copy of the tuple succeeds, the status is
passed through unchanged. -/
theorem pushTupleFront_status_ok (allocOk : Tensor → Bool) (t : List Tensor) :
    ∀ (queues : List (List Tensor)) (j : Nat) (status : Option QErr),
      (∀ k, k < queues.length → allocOk (t.getD (j + k) default) = true) →
      (PushTupleFront allocOk t j queues status).2 = status := by
  intro queues
  induction queues with
  | nil => intro j status _; rfl
  | cons qj rest ih =>
    intro j status hall
    unfold PushTupleFront
    have h0 : allocOk (t.getD j default) = true := by simpa using hall 0 (by simp)
    have hge : GetElementComponent allocOk t j = .ok (t.getD j default) := by
      unfold GetElementComponent
      rw [if_pos h0]
    rw [hge]
    exact ih (j + 1) status fun k hk => by
      have := hall (k + 1) (by simpa using Nat.succ_lt_succ hk)
      simpa [Nat.add_assoc, Nat.add_comm 1 k] using this

/-- The status after pushing one tuple is either the incoming status or
`DataLoss`. -/
theorem pushTupleFront_status_cases (allocOk : Tensor → Bool) (t : List Tensor) :
    ∀ (queues : List (List Tensor)) (j : Nat) (status : Option QErr),
      (PushTupleFront allocOk t j queues status).2 = status ∨
      (PushTupleFront allocOk t j queues status).2 = some .dataLoss := by
  intro queues
  induction queues with
  | nil => intro j status; exact Or.inl rfl
  | cons qj rest ih =>
    intro j status
    unfold PushTupleFront
    cases hge : GetElementComponent allocOk t j with
    | ok e => simpa using ih (j + 1) status
    | error e =>
      rcases ih (j + 1) (some .dataLoss) with h | h <;> simp [h]

/-- A failing component copy forces the outgoing status to `DataLoss`. -/
theorem pushTupleFront_status_fail (allocOk : Tensor → Bool) (t : List Tensor) :
    ∀ (queues : List (List Tensor)) (j : Nat) (status : Option QErr),
      (∃ k, k < queues.length ∧ allocOk (t.getD (j + k) default) = false) →
      (PushTupleFront allocOk t j queues status).2 = some .dataLoss := by
  intro queues
  induction queues with
  | nil => rintro j status ⟨k, hk, _⟩; cases hk
  | cons qj rest ih =>
    rintro j status ⟨k, hk, hfail⟩
    unfold PushTupleFront
    cases k with
    | zero =>
      have hge : GetElementComponent allocOk t j = .error () := by
        simp only [Nat.add_zero] at hfail
        unfold GetElementComponent
        rw [if_neg (by rw [hfail]; simp)]
      rw [hge]
      rcases pushTupleFront_status_cases allocOk t rest (j + 1) (some .dataLoss)
        with h | h <;> simp [h]
    | succ k =>
      cases hge : GetElementComponent allocOk t j with
      | ok e =>
        refine ih (j + 1) status ⟨k, by simpa using hk, ?_⟩
        have harith : j + 1 + k = j + (k + 1) := by omega
        rw [harith]
        exact hfail
      | error e =>
        refine ih (j + 1) (some .dataLoss) ⟨k, by simpa using hk, ?_⟩
        have harith : j + 1 + k = j + (k + 1) := by omega
        rw [harith]
        exact hfail

/-- Restoration keeps the number of component queues. -/
theorem restoreTuples_length (allocOk : Tensor → Bool) (tuples : List (List Tensor))
    (queues : List (List Tensor)) (status : Option QErr) :
    (RestoreTuples allocOk tuples queues status).1.length = queues.length := by
  induction tuples with
  | nil => rfl
  | cons t rest ih =>
    unfold RestoreTuples
    rw [pushTupleFront_length]
    exact ih

/-- When every component copy of every collected tuple succeeds,
restoration puts the collected tuples back in front of every component
queue, in their original pop order. -/
theorem restoreTuples_getD_ok (allocOk : Tensor → Bool) (tuples : List (List Tensor))
    (queues : List (List Tensor)) (status : Option QErr)
    (hok : ∀ t ∈ tuples, ∀ k, k < queues.length → allocOk (t.getD k default) = true) :
    ∀ k, k < queues.length →
      (RestoreTuples allocOk tuples queues status).1.getD k [] =
        tuples.map (fun t => t.getD k default) ++ queues.getD k [] := by
  induction tuples with
  | nil => intro k hk; simp [RestoreTuples]
  | cons t rest ih =>
    intro k hk
    unfold RestoreTuples
    have hlen : (RestoreTuples allocOk rest queues status).1.length = queues.length :=
      restoreTuples_length allocOk rest queues status
    rw [pushTupleFront_getD allocOk t _ 0 _ k (by rw [hlen]; exact hk)]
    have hge : GetElementComponent allocOk t (0 + k) = .ok (t.getD k default) := by
      unfold GetElementComponent
      rw [Nat.zero_add, if_pos (hok t (by simp) k hk)]
    rw [hge, ih (fun t' ht' => hok t' (by simp [ht']) ) k hk]
    simp

/-- When every component copy of every collected tuple succeeds, the
incoming status (the already-set `OutOfRange`) survives restoration. -/
theorem restoreTuples_status_ok (allocOk : Tensor → Bool) (tuples : List (List Tensor))
    (queues : List (List Tensor)) (status : Option QErr)
    (hok : ∀ t ∈ tuples, ∀ k, k < queues.length → allocOk (t.getD k default) = true) :
    (RestoreTuples allocOk tuples queues status).2 = status := by
  induction tuples with
  | nil => rfl
  | cons t rest ih =>
    unfold RestoreTuples
    rw [pushTupleFront_status_ok]
    · exact ih fun t' ht' => hok t' (by simp [ht'])
    · intro k hk
      rw [restoreTuples_length] at hk
      simpa using hok t (by simp) k hk

/-- Any failing component copy during restoration forces `DataLoss`. -/
theorem restoreTuples_status_fail (allocOk : Tensor → Bool) (tuples : List (List Tensor))
    (queues : List (List Tensor)) (status : Option QErr)
    (hfail : ∃ t ∈ tuples, ∃ k, k < queues.length ∧ allocOk (t.getD k default) = false) :
    (RestoreTuples allocOk tuples queues status).2 = some .dataLoss := by
  induction tuples with
  | nil => simp at hfail
  | cons t rest ih =>
    unfold RestoreTuples
    rcases hfail with ⟨t', ht', k, hk, hf⟩
    rcases List.mem_cons.mp ht' with h | h
    · subst h
      refine pushTupleFront_status_fail allocOk t' _ 0 _ ⟨k, ?_, by simpa using hf⟩
      rw [restoreTuples_length]
      exact hk
    · have hrec := ih ⟨t', h, k, hk, hf⟩
      rcases pushTupleFront_status_cases allocOk t
          (RestoreTuples allocOk rest queues status).1 0
          (RestoreTuples allocOk rest queues status).2 with hc | hc
      · rw [hc, hrec]
      · exact hc

/-! ## C1: fail-and-restore on a short close -/

/-- C1: a dequeue-batch attempt evaluated on a closed queue holding
fewer elements than it still requests completes with no output; when
every restoration copy succeeds its status is `OutOfRange` and every
component queue is exactly the collected tuples in pop order followed by
the old content — the store is as if the attempt had never run; when
some restoration copy fails, the status is `DataLoss` instead. -/
theorem dequeueAttemptStep_closed_insufficient (junk : Int) (allocOk : Tensor → Bool)
    (q : QueueSpec) (queues : List (List Tensor)) (att : Attempt)
    (hs : (queues.getD 0 []).length < att.elements_requested) :
    (DequeueAttemptStep junk allocOk q true queues att).run = .kComplete ∧
    (DequeueAttemptStep junk allocOk q true queues att).output = none ∧
    ((∀ t ∈ att.tuples, ∀ k, k < queues.length → allocOk (t.getD k default) = true) →
      (DequeueAttemptStep junk allocOk q true queues att).status = some .outOfRange ∧
      ∀ k, k < queues.length →
        (DequeueAttemptStep junk allocOk q true queues att).queues.getD k [] =
          att.tuples.map (fun t => t.getD k default) ++ queues.getD k []) ∧
    ((∃ t ∈ att.tuples, ∃ k, k < queues.length ∧ allocOk (t.getD k default) = false) →
      (DequeueAttemptStep junk allocOk q true queues att).status = some .dataLoss) := by
  have hcond : (true = true ∧ (queues.getD 0 []).length < att.elements_requested) := ⟨rfl, hs⟩
  unfold DequeueAttemptStep
  rw [if_pos hcond]
  refine ⟨rfl, rfl, fun hok => ⟨?_, ?_⟩, fun hfail => ?_⟩
  · exact restoreTuples_status_ok allocOk att.tuples queues (some .outOfRange) hok
  · intro k hk
    exact restoreTuples_getD_ok allocOk att.tuples queues (some .outOfRange) hok k hk
  · exact restoreTuples_status_fail allocOk att.tuples queues (some .outOfRange) hfail

/-- Witness for `dequeueAttemptStep_closed_insufficient`: one component,
store `[A]`, two collected tuples, five still requested; all restoration
copies succeed, so the attempt fails `OutOfRange` and the store is
`[B, C, A]`. -/
theorem dequeueAttemptStep_closed_insufficient_witness :
    (DequeueAttemptStep 0 (fun _ => true) ⟨1, [.dtInt32], [[none]]⟩ true
        [[⟨.dtInt32, [1], [7]⟩]]
        ⟨5, [[⟨.dtInt32, [1], [8]⟩], [⟨.dtInt32, [1], [9]⟩]]⟩).status =
      some .outOfRange ∧
    (DequeueAttemptStep 0 (fun _ => true) ⟨1, [.dtInt32], [[none]]⟩ true
        [[⟨.dtInt32, [1], [7]⟩]]
        ⟨5, [[⟨.dtInt32, [1], [8]⟩], [⟨.dtInt32, [1], [9]⟩]]⟩).queues.getD 0 [] =
      [⟨.dtInt32, [1], [8]⟩, ⟨.dtInt32, [1], [9]⟩, ⟨.dtInt32, [1], [7]⟩] := by
  have h := dequeueAttemptStep_closed_insufficient 0 (fun _ => true)
    ⟨1, [.dtInt32], [[none]]⟩ [[⟨.dtInt32, [1], [7]⟩]]
    ⟨5, [[⟨.dtInt32, [1], [8]⟩], [⟨.dtInt32, [1], [9]⟩]]⟩ (by decide)
  have hc := h.2.2.1 (fun t _ k _ => rfl)
  exact ⟨hc.1, by rw [hc.2 0 (by decide)]; rfl⟩

/-! ## C9: the store-length invariant -/

/-- Pushing one tuple adds exactly one entry to every component queue. -/
theorem pushTupleFront_mem (allocOk : Tensor → Bool) (t : List Tensor) :
    ∀ (queues : List (List Tensor)) (j : Nat) (status : Option QErr),
      ∀ x ∈ (PushTupleFront allocOk t j queues status).1,
        ∃ y ∈ queues, x.length = y.length + 1 := by
  intro queues
  induction queues with
  | nil => intro j status x hx; simp [PushTupleFront] at hx
  | cons qj rest ih =>
    intro j status x hx
    unfold PushTupleFront at hx
    cases hge : GetElementComponent allocOk t j with
    | ok e =>
      rw [hge] at hx
      simp only [List.mem_cons] at hx
      rcases hx with hx | hx
      · exact ⟨qj, by simp, by simp [hx]⟩
      · obtain ⟨y, hy, hl⟩ := ih (j + 1) status x hx
        exact ⟨y, by simp [hy], hl⟩
    | error e =>
      rw [hge] at hx
      simp only [List.mem_cons] at hx
      rcases hx with hx | hx
      · exact ⟨qj, by simp, by simp [hx]⟩
      · obtain ⟨y, hy, hl⟩ := ih (j + 1) (some .dataLoss) x hx
        exact ⟨y, by simp [hy], hl⟩

/-- Restoration preserves the equal-length invariant of the store. -/
theorem restoreTuples_equal_lengths (allocOk : Tensor → Bool) (tuples : List (List Tensor))
    (queues : List (List Tensor)) (status : Option QErr)
    (h : ∀ a ∈ queues, ∀ b ∈ queues, a.length = b.length) :
    ∀ a ∈ (RestoreTuples allocOk tuples queues status).1,
      ∀ b ∈ (RestoreTuples allocOk tuples queues status).1, a.length = b.length := by
  induction tuples with
  | nil => exact h
  | cons t rest ih =>
    intro a ha b hb
    unfold RestoreTuples at ha hb
    obtain ⟨ya, hya, hla⟩ := pushTupleFront_mem allocOk t _ 0 _ a ha
    obtain ⟨yb, hyb, hlb⟩ := pushTupleFront_mem allocOk t _ 0 _ b hb
    rw [hla, hlb, ih ya hya yb hyb]

/-- The pop loop preserves the equal-length invariant of the store. -/
theorem popLoop_equal_lengths (junk : Int) (q : QueueSpec) :
    ∀ (fuel : Nat) (queues tuples : List (List Tensor)) (requested : Nat) (r0 : RunResult),
      (∀ a ∈ queues, ∀ b ∈ queues, a.length = b.length) →
      ∀ a ∈ (PopLoop junk q fuel queues tuples requested r0).queues,
        ∀ b ∈ (PopLoop junk q fuel queues tuples requested r0).queues,
          a.length = b.length := by
  intro fuel
  induction fuel with
  | zero =>
    intro queues tuples requested r0 h
    simpa [PopLoop] using h
  | succ s ih =>
    intro queues tuples requested r0 h
    have htail : ∀ a ∈ queues.map List.tail, ∀ b ∈ queues.map List.tail,
        a.length = b.length := by
      intro a ha b hb
      obtain ⟨a', ha', rfl⟩ := List.mem_map.mp ha
      obtain ⟨b', hb', rfl⟩ := List.mem_map.mp hb
      simp only [List.length_tail]
      rw [h a' ha' b' hb']
    simp only [PopLoop, DequeueLocked]
    split
    · split <;> exact htail
    · exact ih _ _ _ _ htail

/-- C9: one evaluation of the dequeue-attempt progress lambda — the pop
loop as well as the restoration path, a failing restoration copy
included (the default-constructed element is still pushed) — moves
exactly one entry per component container per tuple, so it preserves the
invariant that all component containers have equal length. -/
theorem dequeueAttemptStep_store_lengths_equal (junk : Int) (allocOk : Tensor → Bool)
    (q : QueueSpec) (closed : Bool) (queues : List (List Tensor)) (att : Attempt)
    (h : ∀ a ∈ queues, ∀ b ∈ queues, a.length = b.length) :
    ∀ a ∈ (DequeueAttemptStep junk allocOk q closed queues att).queues,
      ∀ b ∈ (DequeueAttemptStep junk allocOk q closed queues att).queues,
        a.length = b.length := by
  by_cases hc : closed = true ∧ (queues.getD 0 []).length < att.elements_requested
  · simp only [DequeueAttemptStep, if_pos hc]
    exact restoreTuples_equal_lengths allocOk att.tuples queues (some .outOfRange) h
  · simp only [DequeueAttemptStep, if_neg hc]
    exact popLoop_equal_lengths junk q _ queues att.tuples att.elements_requested
      .kNoProgress h

/-- Witness for `dequeueAttemptStep_store_lengths_equal`: a two-component
store `[[A], [B]]` with one collected tuple restored on a short close;
both containers end with two entries. -/
theorem dequeueAttemptStep_store_lengths_equal_witness :
    [(⟨.dtInt32, [1], [3]⟩ : Tensor), ⟨.dtInt32, [1], [1]⟩].length =
      [(⟨.dtInt32, [1], [4]⟩ : Tensor), ⟨.dtInt32, [1], [2]⟩].length :=
  dequeueAttemptStep_store_lengths_equal 0 (fun _ => true)
    ⟨4, [.dtInt32, .dtInt32], [[none], [none]]⟩ true
    [[⟨.dtInt32, [1], [1]⟩], [⟨.dtInt32, [1], [2]⟩]]
    ⟨5, [[⟨.dtInt32, [1], [3]⟩, ⟨.dtInt32, [1], [4]⟩]]⟩ (by decide)
    [⟨.dtInt32, [1], [3]⟩, ⟨.dtInt32, [1], [1]⟩] (by decide)
    [⟨.dtInt32, [1], [4]⟩, ⟨.dtInt32, [1], [2]⟩] (by decide)

/-! ## Generic `Except` fold and map lemmas -/

/-- Inversion of a successful `Except` bind. -/
theorem except_bind_ok {α β : Type} (e : Except QErr α) (f : α → Except QErr β) (y : β)
    (h : (e >>= f) = .ok y) : ∃ x, e = .ok x ∧ f x = .ok y := by
  cases e with
  | ok x => exact ⟨x, rfl, h⟩
  | error err => simp [Bind.bind, Except.bind] at h

/-- A property preserved by every successful step of a fold holds at the
end of a successful fold. -/
theorem except_foldlM_invariant {α β : Type} (f : β → α → Except QErr β) (P : β → Prop)
    (hstep : ∀ b x b2, P b → f b x = .ok b2 → P b2) :
    ∀ (l : List α) (b b2 : β), P b → l.foldlM f b = .ok b2 → P b2 := by
  intro l
  induction l with
  | nil =>
    intro b b2 hP h
    rw [List.foldlM_nil] at h
    cases h
    exact hP
  | cons a l ih =>
    intro b b2 hP h
    rw [List.foldlM_cons] at h
    obtain ⟨mid, hmid, hrest⟩ := except_bind_ok _ _ _ h
    exact ih mid b2 (hstep b a mid hP hmid) hrest

/-- Inversion of a successful `mapM`: lengths agree and every position's
image is the corresponding output entry. -/
theorem except_mapM_ok {α β : Type} (f : α → Except QErr β) :
    ∀ (l : List α) (out : List β), l.mapM f = .ok out →
      out.length = l.length ∧
      ∀ (k : Nat) (da : α) (db : β), k < l.length →
        f (l.getD k da) = .ok (out.getD k db) := by
  intro l
  induction l with
  | nil =>
    intro out h
    rw [List.mapM_nil] at h
    cases h
    exact ⟨rfl, fun k da db hk => by cases hk⟩
  | cons a l ih =>
    intro out h
    rw [List.mapM_cons] at h
    obtain ⟨b, hb, h2⟩ := except_bind_ok _ _ _ h
    obtain ⟨bs, hbs, h3⟩ := except_bind_ok _ _ _ h2
    have hout : out = b :: bs := by
      cases h3
      rfl
    subst hout
    obtain ⟨hlen, hget⟩ := ih bs hbs
    refine ⟨by simp [hlen], ?_⟩
    intro k da db hk
    cases k with
    | zero => simpa using hb
    | succ k => simpa using hget k da db (by simpa using hk)

/-- Setting a list entry to its own value changes nothing. -/
theorem list_set_self {α : Type} (l : List α) (i : Nat) (t : α)
    (ht : l[i]? = some t) : l.set i t = l := by
  apply List.ext_getElem?
  intro n
  rw [List.getElem?_set]
  split
  · next he =>
    subst he
    have hi : i < l.length := by
      by_contra hge
      rw [List.getElem?_eq_none (by omega)] at ht
      cases ht
    rw [if_pos hi, ht]
  · rfl

/-! ## Shape and content facts of the copy operations -/

/-- A successful zero-fill keeps the type and shape and zeroes the data. -/
theorem setElementZero_ok (t r : Tensor) (h : SetElementZero t = .ok r) :
    r.shape = t.shape ∧ r.dtype = t.dtype ∧ r.data = List.replicate t.data.length 0 := by
  unfold SetElementZero at h
  split at h
  · cases h
    exact ⟨rfl, rfl, rfl⟩
  · cases h

/-- The direct slice copy keeps the output's type, shape and size, and
writes element values into slot `index` wholesale. -/
theorem copyElementToSlice_ok (e p : Tensor) (index : Nat) (r : Tensor)
    (h : CopyElementToSlice e p index = .ok r) :
    r.shape = p.shape ∧ r.dtype = p.dtype ∧ r.data.length = p.data.length := by
  unfold CopyElementToSlice at h
  cases h
  exact ⟨rfl, rfl, by simp⟩

/-- A successful rank-indexed padded copy keeps the output's type, shape
and size, and its content at any in-range flat position: positions of
slot `index` whose within-slot multi-index lies inside the element's
extent receive the element's value there; every other position keeps the
output's previous value. -/
theorem handleElementToLargerSlice_ok (e p : Tensor) (index : Nat) (r : Tensor)
    (h : HandleElementToLargerSlice e p index = .ok r) :
    r.shape = p.shape ∧ r.dtype = p.dtype ∧ r.data.length = p.data.length ∧
    ∀ pos, pos < p.data.length →
      r.data.getD pos 0 =
        if pos / p.shape.tail.prod = index ∧
            inExtent e.shape (multiIndex p.shape.tail (pos % p.shape.tail.prod)) = true then
          e.data.getD (flatIndex e.shape (multiIndex p.shape.tail (pos % p.shape.tail.prod))) 0
        else p.data.getD pos 0 := by
  unfold HandleElementToLargerSlice at h
  split at h
  · cases h
  · cases h
    refine ⟨rfl, rfl, by simp, ?_⟩
    intro pos hpos
    show ((List.range p.data.length).map _).getD pos 0 = _
    rw [List.getD_eq_getElem?_getD, List.getElem?_map, List.getElem?_range hpos]
    rfl

/-- A successful padded copy keeps the output's type, shape and size and
has the content of `handleElementToLargerSlice_ok`. -/
theorem copyElementToLargerSlice_ok (e p : Tensor) (index : Nat) (r : Tensor)
    (h : CopyElementToLargerSlice e p index = .ok r) :
    HandleElementToLargerSlice e p index = .ok r := by
  unfold CopyElementToLargerSlice at h
  split at h
  · cases h
  · split at h
    · unfold HandleElementToLargerSliceWithRank at h
      split at h
      · exact h
      · cases h
    · cases h

/-- One copy step of the batch-completion loop keeps every output's
shape and size. -/
theorem copyBatchStep_preserves (dyn : List Bool) (tuples : List (List Tensor))
    (index : Nat) (acc : List Tensor) (i : Nat) (res : List Tensor)
    (h : CopyBatchStep dyn tuples index acc i = .ok res) :
    res.map (fun t => (t.shape, t.data.length)) =
      acc.map (fun t => (t.shape, t.data.length)) := by
  unfold CopyBatchStep at h
  set e := (tuples.getD index []).getD i default with he
  set cur := acc.getD i default with hcur
  have main : ∀ t : Tensor, t.shape = cur.shape → t.data.length = cur.data.length →
      res = acc.set i t →
      res.map (fun t => (t.shape, t.data.length)) =
        acc.map (fun t => (t.shape, t.data.length)) := by
    intro t hsh hdl hres
    subst hres
    rw [List.map_set]
    by_cases hi : i < acc.length
    · have hget : (acc.map fun t => (t.shape, t.data.length))[i]? =
          some (t.shape, t.data.length) := by
        rw [List.getElem?_map, List.getElem?_eq_getElem hi]
        have : acc.getD i default = acc[i] := by
          rw [List.getD_eq_getElem?_getD, List.getElem?_eq_getElem hi]
          rfl
        rw [hsh, hdl, hcur, this]
        rfl
      exact list_set_self _ i _ hget
    · rw [List.set_eq_of_length_le (by simpa using Nat.le_of_not_lt hi)]
  dsimp only at h
  split at h
  · cases hcp : CopyElementToLargerSlice e cur index with
    | ok t =>
      rw [hcp] at h
      simp only [Except.map] at h
      injection h with h
      obtain ⟨hsh, _, hdl, _⟩ :=
        handleElementToLargerSlice_ok e cur index t (copyElementToLargerSlice_ok e cur index t hcp)
      exact main t hsh hdl h.symm
    | error err => rw [hcp] at h; cases h
  · cases hcp : CopyElementToSlice e cur index with
    | ok t =>
      rw [hcp] at h
      simp only [Except.map] at h
      injection h with h
      obtain ⟨hsh, _, hdl⟩ := copyElementToSlice_ok e cur index t hcp
      exact main t hsh hdl h.symm
    | error err => rw [hcp] at h; cases h

/-- One whole round of the copy loop keeps every output's shape and size. -/
theorem copyBatchIndex_preserves (q : QueueSpec) (dyn : List Bool)
    (tuples : List (List Tensor)) (acc : List Tensor) (index : Nat) (res : List Tensor)
    (h : CopyBatchIndex q dyn tuples acc index = .ok res) :
    res.map (fun t => (t.shape, t.data.length)) =
      acc.map (fun t => (t.shape, t.data.length)) := by
  unfold CopyBatchIndex at h
  refine except_foldlM_invariant _
    (fun b => b.map (fun t => (t.shape, t.data.length)) =
      acc.map (fun t => (t.shape, t.data.length))) ?_ _ acc res rfl h
  intro b x b2 hP hstep
  rw [copyBatchStep_preserves dyn tuples index b x b2 hstep]
  exact hP

/-- A `foldl max` is its seed or one of the list's members. -/
theorem foldl_max_choice (l : List Nat) : ∀ b, l.foldl max b = b ∨ l.foldl max b ∈ l := by
  induction l with
  | nil => intro b; exact Or.inl rfl
  | cons c t ih =>
    intro b
    rw [List.foldl_cons]
    rcases ih (max b c) with h | h
    · rcases max_choice b c with hm | hm
      · exact Or.inl (by rw [h, hm])
      · exact Or.inr (by rw [h, hm]; simp)
    · exact Or.inr (by simp [h])

/-- Inversion of a successful allocation for one component: the output's
shape is `{B} ++ target`, its type the component's, its size the shape's
product; the dynamic flag says whether the declared shape is not fully
defined, and a dynamic output is entirely zero-filled. -/
theorem allocateBatchComponent_ok (junk : Int) (q : QueueSpec)
    (tuples : List (List Tensor)) (i : Nat) (pr : Tensor × Bool)
    (h : AllocateBatchComponent junk q tuples i = .ok pr) :
    pr.1.shape = tuples.length :: BatchTargetDims q tuples i ∧
    pr.1.dtype = q.component_dtypes.getD i default ∧
    pr.1.data.length = (tuples.length :: BatchTargetDims q tuples i).prod ∧
    pr.2 = !(q.shapeSpecs.getD i []).all Option.isSome ∧
    (pr.2 = true →
      pr.1.data = List.replicate (tuples.length :: BatchTargetDims q tuples i).prod 0) := by
  unfold AllocateBatchComponent at h
  dsimp only at h
  split at h
  · next hdyn =>
    cases hsz : SetElementZero
        ⟨q.component_dtypes.getD i default, tuples.length :: BatchTargetDims q tuples i,
          List.replicate (tuples.length :: BatchTargetDims q tuples i).prod junk⟩ with
    | ok z =>
      rw [hsz] at h
      simp only [Except.map] at h
      injection h with h
      obtain ⟨hsh, hdt, hdata⟩ := setElementZero_ok _ z hsz
      subst h
      refine ⟨by simpa using hsh, by simpa using hdt, ?_, by exact hdyn.symm, fun _ => ?_⟩
      · rw [hdata]
        simp
      · rw [hdata]
        simp
    | error err => rw [hsz] at h; cases h
  · next hdyn =>
    cases h
    refine ⟨rfl, rfl, by simp, ?_, fun hfalse => by cases hfalse⟩
    have hall : (q.shapeSpecs.getD i []).all Option.isSome = true := by
      rcases Bool.eq_false_or_eq_true ((q.shapeSpecs.getD i []).all Option.isSome) with hb | hb
      · exact hb
      · exact absurd (by rw [hb]; rfl) hdyn
    rw [hall]
    rfl

/-- Inversion of a successful batch assembly into its two passes. -/
theorem assembleBatch_ok_parts (junk : Int) (q : QueueSpec) (tuples : List (List Tensor))
    (outs : List Tensor) (h : AssembleBatch junk q tuples = .ok outs) :
    ∃ pairs,
      (List.range q.numComponents).mapM (AllocateBatchComponent junk q tuples) = .ok pairs ∧
      (List.range tuples.length).foldlM (CopyBatchIndex q (pairs.map Prod.snd) tuples)
        (pairs.map Prod.fst) = .ok outs := by
  unfold AssembleBatch at h
  exact except_bind_ok _ _ _ h

/-- The copy passes keep the outputs' shapes and sizes. -/
theorem assembleBatch_fold_preserves (q : QueueSpec) (dyn : List Bool)
    (tuples : List (List Tensor)) (idxs : List Nat) (acc res : List Tensor)
    (h : idxs.foldlM (CopyBatchIndex q dyn tuples) acc = .ok res) :
    res.map (fun t => (t.shape, t.data.length)) =
      acc.map (fun t => (t.shape, t.data.length)) := by
  refine except_foldlM_invariant _
    (fun b => b.map (fun t => (t.shape, t.data.length)) =
      acc.map (fun t => (t.shape, t.data.length))) ?_ idxs acc res rfl h
  intro b x b2 hP hstep
  rw [copyBatchIndex_preserves q dyn tuples b x b2 hstep]
  exact hP

/-- C2: a completed batch of `B` tuples yields, for every component, one
output of shape `{B} ++ target`, where a fixed dimension's target is the
descriptor's size and a free dimension's target is the maximum of that
dimension's actual size over the batch. -/
theorem assembleBatch_output_shapes (junk : Int) (q : QueueSpec)
    (tuples : List (List Tensor)) (outs : List Tensor)
    (hok : AssembleBatch junk q tuples = .ok outs) :
    outs.length = q.numComponents ∧
    ∀ i, i < q.numComponents →
      (outs.getD i default).shape = tuples.length :: BatchTargetDims q tuples i ∧
      (∀ j d, (q.shapeSpecs.getD i []).getD j none = some d →
        (BatchTargetDims q tuples i).getD j 0 = d) ∧
      (∀ j, j < (q.shapeSpecs.getD i []).length →
        (q.shapeSpecs.getD i []).getD j none = none →
        (∀ t ∈ tuples,
          (t.getD i default).shape.getD j 0 ≤ (BatchTargetDims q tuples i).getD j 0) ∧
        ((BatchTargetDims q tuples i).getD j 0 = 0 ∨
          ∃ t ∈ tuples,
            (t.getD i default).shape.getD j 0 = (BatchTargetDims q tuples i).getD j 0)) := by
  obtain ⟨pairs, hpairs, hfold⟩ := assembleBatch_ok_parts junk q tuples outs hok
  obtain ⟨hplen, hpget⟩ := except_mapM_ok _ _ _ hpairs
  have hplen' : pairs.length = q.numComponents := by simpa using hplen
  have hpres := assembleBatch_fold_preserves q (pairs.map Prod.snd) tuples _ _ _ hfold
  have hout_len : outs.length = q.numComponents := by
    have := congrArg List.length hpres
    simpa [hplen'] using this
  refine ⟨hout_len, ?_⟩
  intro i hi
  have hip : i < pairs.length := by rw [hplen']; exact hi
  have hio : i < outs.length := by rw [hout_len]; exact hi
  have hrange : (List.range q.numComponents).getD i 0 = i := by
    rw [List.getD_eq_getElem?_getD, List.getElem?_range hi]
    rfl
  have halloc := hpget i 0 (default, false) (by simpa using hi)
  rw [hrange] at halloc
  obtain ⟨hsh, hdt, hlen, hdynflag, hzero⟩ :=
    allocateBatchComponent_ok junk q tuples i _ halloc
  have hprget : pairs.getD i (default, false) = pairs[i] := by
    rw [List.getD_eq_getElem?_getD, List.getElem?_eq_getElem hip]
    rfl
  have houtget : outs.getD i default = outs[i] := by
    rw [List.getD_eq_getElem?_getD, List.getElem?_eq_getElem hio]
    rfl
  have heq := congrArg (fun l => l[i]?) hpres
  simp only [List.getElem?_map] at heq
  rw [List.getElem?_eq_getElem hio,
    List.getElem?_eq_getElem (show i < pairs.length from hip)] at heq
  simp only [Option.map_some'] at heq
  injection heq with heq
  have hshape : (outs.getD i default).shape = pairs[i].1.shape := by
    rw [houtget]
    exact congrArg Prod.fst heq
  refine ⟨?_, ?_, ?_⟩
  · rw [hshape, ← hprget]
    exact hsh
  · intro j d hj
    have hjlt : j < (q.shapeSpecs.getD i []).length := by
      by_contra hge
      rw [List.getD_eq_getElem?_getD, List.getElem?_eq_none (by omega)] at hj
      cases hj
    unfold BatchTargetDims
    rw [computeTargetDims_getD _ _ j hjlt, hj]
  · intro j hjlt hj
    have htgt : (BatchTargetDims q tuples i).getD j 0 =
        ((tuples.map fun t => (t.getD i default).shape).map fun s => s.getD j 0).foldl
          max 0 := by
      unfold BatchTargetDims
      rw [computeTargetDims_getD _ _ j hjlt, hj]
    constructor
    · intro t ht
      rw [htgt]
      refine le_foldl_max _ _ ?_ 0
      exact List.mem_map.mpr ⟨(t.getD i default).shape,
        List.mem_map.mpr ⟨t, ht, rfl⟩, rfl⟩
    · rw [htgt]
      rcases foldl_max_choice
          ((tuples.map fun t => (t.getD i default).shape).map fun s => s.getD j 0) 0
        with h0 | hmem
      · exact Or.inl h0
      · obtain ⟨s, hs, hval⟩ := List.mem_map.mp hmem
        obtain ⟨t, ht, hts⟩ := List.mem_map.mp hs
        exact Or.inr ⟨t, ht, by rw [hts, hval]⟩

/-- `getD` after `set` at a different position. -/
theorem getD_set_ne {α : Type} (l : List α) (k i : Nat) (a d : α) (h : k ≠ i) :
    (l.set k a).getD i d = l.getD i d := by
  rw [List.getD_eq_getElem?_getD, List.getElem?_set, if_neg h, ← List.getD_eq_getElem?_getD]

/-- `getD` after `set` at the same, in-range position. -/
theorem getD_set_self {α : Type} (l : List α) (k : Nat) (a d : α) (h : k < l.length) :
    (l.set k a).getD k d = a := by
  rw [List.getD_eq_getElem?_getD, List.getElem?_set, if_pos rfl, if_pos h]
  rfl

/-- Inversion of one successful copy step: the component's copy
succeeded and output `i` was replaced by its result. -/
theorem copyBatchStep_ok_inv (dyn : List Bool) (tuples : List (List Tensor)) (index : Nat)
    (acc : List Tensor) (i : Nat) (res : List Tensor)
    (h : CopyBatchStep dyn tuples index acc i = .ok res) :
    ∃ t,
      (if dyn.getD i false then
        CopyElementToLargerSlice ((tuples.getD index []).getD i default)
          (acc.getD i default) index
      else
        CopyElementToSlice ((tuples.getD index []).getD i default)
          (acc.getD i default) index) = .ok t ∧
      res = acc.set i t := by
  unfold CopyBatchStep at h
  dsimp only at h
  cases hcp : (if dyn.getD i false then
      CopyElementToLargerSlice ((tuples.getD index []).getD i default)
        (acc.getD i default) index
    else
      CopyElementToSlice ((tuples.getD index []).getD i default)
        (acc.getD i default) index) with
  | ok t =>
    rw [hcp] at h
    simp only [Except.map] at h
    injection h with h
    exact ⟨t, rfl, h.symm⟩
  | error err => rw [hcp] at h; cases h

/-- One round of the copy loop, componentwise: a component outside the
processed index list is untouched; a processed component in range holds
the result of its own single copy, applied to its own previous output. -/
theorem copyFold_components (dyn : List Bool) (tuples : List (List Tensor)) (index : Nat) :
    ∀ (is : List Nat) (acc res : List Tensor), is.Nodup →
      is.foldlM (CopyBatchStep dyn tuples index) acc = .ok res →
      (∀ i, i ∉ is → res.getD i default = acc.getD i default) ∧
      (∀ i ∈ is, i < acc.length →
        ∃ t,
          (if dyn.getD i false then
            CopyElementToLargerSlice ((tuples.getD index []).getD i default)
              (acc.getD i default) index
          else
            CopyElementToSlice ((tuples.getD index []).getD i default)
              (acc.getD i default) index) = .ok t ∧
          res.getD i default = t) := by
  intro is
  induction is with
  | nil =>
    intro acc res _ h
    rw [List.foldlM_nil] at h
    cases h
    exact ⟨fun i _ => rfl, fun i hi => absurd hi (List.not_mem_nil i)⟩
  | cons i0 rest ih =>
    intro acc res hnd h
    rw [List.foldlM_cons] at h
    obtain ⟨mid, hmid, hrest⟩ := except_bind_ok _ _ _ h
    obtain ⟨t0, hcp0, hmid0⟩ := copyBatchStep_ok_inv dyn tuples index acc i0 mid hmid
    have hi0nr : i0 ∉ rest := (List.nodup_cons.mp hnd).1
    have hndr : rest.Nodup := (List.nodup_cons.mp hnd).2
    obtain ⟨hout, hin⟩ := ih mid res hndr hrest
    constructor
    · intro i hi
      have hne : i0 ≠ i := fun he => hi (he ▸ List.mem_cons_self i0 rest)
      have hnr : i ∉ rest := fun hr => hi (List.mem_cons_of_mem i0 hr)
      rw [hout i hnr, hmid0, getD_set_ne acc i0 i t0 default hne]
    · intro i hi hia
      rcases List.mem_cons.mp hi with he | hr
      · subst he
        refine ⟨t0, hcp0, ?_⟩
        rw [hout i hi0nr, hmid0, getD_set_self acc i t0 default hia]
      · have hne : i0 ≠ i := fun he => hi0nr (he ▸ hr)
        have hmidget : mid.getD i default = acc.getD i default := by
          rw [hmid0, getD_set_ne acc i0 i t0 default hne]
        have hmidlen : mid.length = acc.length := by
          rw [hmid0, List.length_set]
        obtain ⟨t, hcp, hres⟩ := hin i hr (by rw [hmidlen]; exact hia)
        rw [hmidget] at hcp
        exact ⟨t, hcp, hres⟩

/-- The whole copy pass, restricted to one component: output `i` is the
result of folding that component's own copies over the batch positions. -/
theorem copyOuter_component (q : QueueSpec) (dyn : List Bool)
    (tuples : List (List Tensor)) :
    ∀ (idxs : List Nat) (acc res : List Tensor) (i : Nat),
      i < q.numComponents → i < acc.length →
      idxs.foldlM (CopyBatchIndex q dyn tuples) acc = .ok res →
      idxs.foldlM (fun cur index =>
          if dyn.getD i false then
            CopyElementToLargerSlice ((tuples.getD index []).getD i default) cur index
          else
            CopyElementToSlice ((tuples.getD index []).getD i default) cur index)
        (acc.getD i default) = .ok (res.getD i default) := by
  intro idxs
  induction idxs with
  | nil =>
    intro acc res i _ _ h
    rw [List.foldlM_nil] at h ⊢
    cases h
    rfl
  | cons index rest ih =>
    intro acc res i hi hia h
    rw [List.foldlM_cons] at h ⊢
    obtain ⟨mid, hmid, hrest⟩ := except_bind_ok _ _ _ h
    have hmid' := hmid
    unfold CopyBatchIndex at hmid'
    obtain ⟨hout, hin⟩ := copyFold_components dyn tuples index
      (List.range q.numComponents) acc mid (List.nodup_range _) hmid'
    obtain ⟨t, hcopy, hmidt⟩ := hin i (List.mem_range.mpr hi) hia
    have hlen : mid.length = acc.length := by
      have hp := copyBatchIndex_preserves q dyn tuples acc index mid hmid
      have := congrArg List.length hp
      simpa using this
    rw [hcopy]
    have hrec := ih mid res i hi (by rw [hlen]; exact hia) hrest
    rw [hmidt] at hrec
    simpa [Bind.bind, Except.bind] using hrec

/-- Contents of one component's output after folding its padded copies
over batch positions `0 … k-1`: a position of slot `b` whose within-slot
multi-index lies inside element `b`'s extent holds element `b`'s value
there once `b < k`; every other position still holds the start value. -/
theorem copyChain_content (tuples : List (List Tensor)) (i : Nat) (target : List Nat) :
    ∀ (k : Nat) (B : Nat) (start res : Tensor),
      start.shape = B :: target →
      start.data.length = B * target.prod →
      (List.range k).foldlM (fun cur index =>
          CopyElementToLargerSlice ((tuples.getD index []).getD i default) cur index)
        start = .ok res →
      res.shape = B :: target ∧ res.data.length = B * target.prod ∧
      ∀ b r, b < B → r < target.prod →
        res.data.getD (b * target.prod + r) 0 =
          if b < k ∧ inExtent ((tuples.getD b []).getD i default).shape
              (multiIndex target r) = true then
            ((tuples.getD b []).getD i default).data.getD
              (flatIndex ((tuples.getD b []).getD i default).shape (multiIndex target r)) 0
          else start.data.getD (b * target.prod + r) 0 := by
  intro k
  induction k with
  | zero =>
    intro B start res hsh hdl h
    rw [List.range_zero, List.foldlM_nil] at h
    cases h
    refine ⟨hsh, hdl, ?_⟩
    intro b r _ _
    rw [if_neg]
    rintro ⟨hb0, _⟩
    cases hb0
  | succ k ih =>
    intro B start res hsh hdl h
    rw [List.range_succ, List.foldlM_append] at h
    obtain ⟨mid, hmid, hstep⟩ := except_bind_ok _ _ _ h
    obtain ⟨hmsh, hmdl, hmc⟩ := ih B start mid hsh hdl hmid
    simp only [List.foldlM_cons, List.foldlM_nil] at hstep
    obtain ⟨res', hres', hpure⟩ := except_bind_ok _ _ _ hstep
    have hres : res' = res := by
      cases hpure
      rfl
    rw [hres] at hres'
    obtain ⟨hrsh, hrdt, hrdl, hrc⟩ :=
      handleElementToLargerSlice_ok _ mid k res
        (copyElementToLargerSlice_ok _ mid k res hres')
    have htail : mid.shape.tail = target := by rw [hmsh]; rfl
    refine ⟨by rw [hrsh, hmsh], by rw [hrdl, hmdl], ?_⟩
    intro b r hb hr
    have hS : 0 < target.prod := Nat.pos_of_ne_zero fun h0 => by rw [h0] at hr; cases hr
    have hpos : b * target.prod + r < mid.data.length := by
      rw [hmdl]
      calc b * target.prod + r < b * target.prod + target.prod := by omega
        _ = (b + 1) * target.prod := by ring
        _ ≤ B * target.prod := Nat.mul_le_mul_right _ (by omega)
    have hdivmod : (b * target.prod + r) / target.prod = b ∧
        (b * target.prod + r) % target.prod = r := by
      constructor
      · rw [Nat.mul_comm b target.prod, Nat.mul_add_div hS, Nat.div_eq_of_lt hr,
          Nat.add_zero]
      · rw [Nat.mul_comm b target.prod, Nat.mul_add_mod, Nat.mod_eq_of_lt hr]
    rw [hrc (b * target.prod + r) hpos, htail, hdivmod.1, hdivmod.2]
    by_cases hbk : b = k
    · subst hbk
      by_cases hext : inExtent ((tuples.getD b []).getD i default).shape
          (multiIndex target r) = true
      · rw [if_pos ⟨rfl, hext⟩, if_pos ⟨Nat.lt_succ_self b, hext⟩]
      · rw [if_neg (fun hc => hext hc.2), if_neg (fun hc => hext hc.2),
          hmc b r hb hr, if_neg (fun hc => absurd hc.1 (Nat.lt_irrefl b))]
    · rw [if_neg (fun hc => hbk hc.1), hmc b r hb hr]
      by_cases hblt : b < k
      · by_cases hext : inExtent ((tuples.getD b []).getD i default).shape
            (multiIndex target r) = true
        · rw [if_pos ⟨hblt, hext⟩, if_pos ⟨Nat.lt_succ_of_lt hblt, hext⟩]
        · rw [if_neg (fun hc => hext hc.2), if_neg (fun hc => hext hc.2)]
      · rw [if_neg (fun hc => hblt hc.1), if_neg
          (fun hc => hblt (by omega : b < k))]

/-- Every position of a zero-replicate list reads zero. -/
theorem getD_replicate_zero (n p : Nat) : (List.replicate n (0 : Int)).getD p 0 = 0 := by
  rw [List.getD_eq_getElem?_getD, List.getElem?_replicate]
  split <;> rfl

/-- C3: for a component whose declared shape is not fully fixed, the
assembler zero-fills the whole output before copying, so each element's
values occupy the leading region (its own extent) of its batch slot and
every position outside that extent reads zero; in particular, for one
free dimension and elements `[1,2]`, `[3,4,5]`, `[6]`, a batch of 3
yields the `[3,3]` buffer `[1,2,0, 3,4,5, 6,0,0]` even though the
allocator handed over junk contents (here 7). -/
theorem assembleBatch_zero_padding :
    (∀ (junk : Int) (q : QueueSpec) (tuples : List (List Tensor)) (outs : List Tensor)
        (i : Nat),
      AssembleBatch junk q tuples = .ok outs →
      i < q.numComponents →
      (q.shapeSpecs.getD i []).all Option.isSome = false →
      ∀ b r, b < tuples.length → r < (BatchTargetDims q tuples i).prod →
        (outs.getD i default).data.getD (b * (BatchTargetDims q tuples i).prod + r) 0 =
          if inExtent ((tuples.getD b []).getD i default).shape
              (multiIndex (BatchTargetDims q tuples i) r) = true then
            ((tuples.getD b []).getD i default).data.getD
              (flatIndex ((tuples.getD b []).getD i default).shape
                (multiIndex (BatchTargetDims q tuples i) r)) 0
          else 0) ∧
    AssembleBatch 7 ⟨2, [.dtInt32], [[none]]⟩
        [[⟨.dtInt32, [2], [1, 2]⟩], [⟨.dtInt32, [3], [3, 4, 5]⟩], [⟨.dtInt32, [1], [6]⟩]] =
      .ok [⟨.dtInt32, [3, 3], [1, 2, 0, 3, 4, 5, 6, 0, 0]⟩] := by
  constructor
  · intro junk q tuples outs i hok hi hdyn b r hb hr
    obtain ⟨pairs, hpairs, hfold⟩ := assembleBatch_ok_parts junk q tuples outs hok
    obtain ⟨hplen, hpget⟩ := except_mapM_ok _ _ _ hpairs
    have hplen' : pairs.length = q.numComponents := by simpa using hplen
    have hrange : (List.range q.numComponents).getD i 0 = i := by
      rw [List.getD_eq_getElem?_getD, List.getElem?_range hi]
      rfl
    have halloc := hpget i 0 (default, false) (by simpa using hi)
    rw [hrange] at halloc
    obtain ⟨hsh, hdt, hlen, hdynflag, hzero⟩ :=
      allocateBatchComponent_ok junk q tuples i _ halloc
    have hdg : (pairs.map Prod.snd).getD i false = (pairs.getD i (default, false)).2 := by
      rw [List.getD_eq_getElem?_getD, List.getElem?_map, List.getD_eq_getElem?_getD]
      cases pairs[i]? <;> rfl
    have hfg : (pairs.map Prod.fst).getD i default = (pairs.getD i (default, false)).1 := by
      rw [List.getD_eq_getElem?_getD, List.getElem?_map, List.getD_eq_getElem?_getD]
      cases pairs[i]? <;> rfl
    have htrue : (pairs.map Prod.snd).getD i false = true := by
      rw [hdg, hdynflag, hdyn]
      rfl
    have hia : i < (pairs.map Prod.fst).length := by
      rw [List.length_map, hplen']
      exact hi
    have hchain := copyOuter_component q (pairs.map Prod.snd) tuples
      (List.range tuples.length) (pairs.map Prod.fst) outs i hi hia hfold
    simp only [htrue, if_true] at hchain
    have hdata : (pairs.getD i (default, false)).1.data =
        List.replicate (tuples.length :: BatchTargetDims q tuples i).prod 0 := by
      apply hzero
      rw [hdynflag, hdyn]
      rfl
    have hstart_sh : ((pairs.map Prod.fst).getD i default).shape =
        tuples.length :: BatchTargetDims q tuples i := by
      rw [hfg]
      exact hsh
    have hstart_dl : ((pairs.map Prod.fst).getD i default).data.length =
        tuples.length * (BatchTargetDims q tuples i).prod := by
      rw [hfg, hdata]
      simp [List.prod_cons]
    obtain ⟨_, _, hcontent⟩ := copyChain_content tuples i (BatchTargetDims q tuples i)
      tuples.length tuples.length ((pairs.map Prod.fst).getD i default)
      (outs.getD i default) hstart_sh hstart_dl hchain
    rw [hcontent b r hb hr]
    have hstart0 : ((pairs.map Prod.fst).getD i default).data.getD
        (b * (BatchTargetDims q tuples i).prod + r) 0 = 0 := by
      rw [hfg, hdata]
      exact getD_replicate_zero _ _
    by_cases hext : inExtent ((tuples.getD b []).getD i default).shape
        (multiIndex (BatchTargetDims q tuples i) r) = true
    · rw [if_pos ⟨hb, hext⟩, if_pos hext]
    · rw [if_neg (fun hc => hext hc.2), if_neg hext, hstart0]
  · rfl

/-- Witness for `assembleBatch_output_shapes` at the spec's padding
example: the single component's output shape is `{3} ++ target`. -/
theorem assembleBatch_output_shapes_witness :
    (([(⟨.dtInt32, [3, 3], [1, 2, 0, 3, 4, 5, 6, 0, 0]⟩ : Tensor)]).getD 0 default).shape =
      3 :: BatchTargetDims ⟨2, [.dtInt32], [[none]]⟩
        [[⟨.dtInt32, [2], [1, 2]⟩], [⟨.dtInt32, [3], [3, 4, 5]⟩], [⟨.dtInt32, [1], [6]⟩]]
        0 :=
  ((assembleBatch_output_shapes 7 ⟨2, [.dtInt32], [[none]]⟩
      [[⟨.dtInt32, [2], [1, 2]⟩], [⟨.dtInt32, [3], [3, 4, 5]⟩], [⟨.dtInt32, [1], [6]⟩]]
      [⟨.dtInt32, [3, 3], [1, 2, 0, 3, 4, 5, 6, 0, 0]⟩] rfl).2 0 (by decide)).1
